import Mathlib

/-!
Verification of the depth first search engine in
source/graphs/python/depth_first_search.py.

The engine is embedded shallowly and faithfully to the Python source:
list indexing follows Python semantics (negative indices wrap around,
out of range indices raise IndexError), fallible operations return
Except values, and the while loop of the traversal is a fuel indexed
recursion whose fuel is proved sufficient below.
-/

/-- Error values that can surface from the embedded code. IndexError is
the built in Python error raised by list indexing. The other two names
come from the external specification of the frontier and of the engine
contract; the embedded code itself can only produce them where the
corresponding operations are modelled. -/
inductive PyErr where
  | indexError
  | emptyFrontierError
  | invalidVertexError
deriving DecidableEq

instance {ε α : Type} [DecidableEq ε] [DecidableEq α] : DecidableEq (Except ε α) := fun x y =>
  match x, y with
  | .error a, .error b => decidable_of_iff (a = b) (by simp)
  | .ok a, .ok b => decidable_of_iff (a = b) (by simp)
  | .error _, .ok _ => isFalse (by simp)
  | .ok _, .error _ => isFalse (by simp)

/-- Shift applied by Python to a negative list index before the range check. -/
def pyShift (n : Nat) (i : Int) : Int :=
  if i < 0 then i + n else i

/-- Canonical index for a Python list access: a negative index first has
the length added to it, then the result must be inside the range. -/
def pyIdx (n : Nat) (i : Int) : Option Nat :=
  if 0 ≤ pyShift n i ∧ pyShift n i < (n : Int) then some (pyShift n i).toNat else none

/-- Python list read with Python index semantics. -/
def pyGet {α : Type} (xs : List α) (i : Int) : Except PyErr α :=
  match pyIdx xs.length i with
  | some j =>
      match xs[j]? with
      | some a => .ok a
      | none => .error .indexError
  | none => .error .indexError

/-- Python list element assignment with Python index semantics. -/
def pySet {α : Type} (xs : List α) (i : Int) (a : α) : Except PyErr (List α) :=
  match pyIdx xs.length i with
  | some j => .ok (xs.set j a)
  | none => .error .indexError

lemma pyShift_of_neg {n : Nat} {i : Int} (h : i < 0) : pyShift n i = i + n := by
  simp [pyShift, h]

lemma pyShift_of_nonneg {n : Nat} {i : Int} (h : 0 ≤ i) : pyShift n i = i := by
  have : ¬ (i < 0) := by omega
  simp [pyShift, this]

lemma pyIdx_lt {n : Nat} {i : Int} {j : Nat} (h : pyIdx n i = some j) : j < n := by
  unfold pyIdx at h
  split at h
  · next hb =>
    simp only [Option.some.injEq] at h
    omega
  · exact absurd h (by simp)

/-- A natural number index below the length is its own canonical index. -/
lemma pyIdx_nat {n j : Nat} (h : j < n) : pyIdx n (j : Int) = some j := by
  have hs : pyShift n (j : Int) = (j : Int) := pyShift_of_nonneg (by omega)
  unfold pyIdx
  rw [hs]
  have hb : 0 ≤ (j : Int) ∧ (j : Int) < (n : Int) := by omega
  simp [hb]

/-- A negative index inside the wrapping range has the same canonical
index as its positive counterpart. -/
lemma pyIdx_neg {n : Nat} {i : Int} (h1 : -(n : Int) ≤ i) (h2 : i < 0) :
    pyIdx n i = pyIdx n ((n : Int) + i) := by
  have hs1 : pyShift n i = i + n := pyShift_of_neg h2
  have hs2 : pyShift n ((n : Int) + i) = (n : Int) + i := pyShift_of_nonneg (by omega)
  unfold pyIdx
  rw [hs1, hs2]
  have : i + (n : Int) = (n : Int) + i := by ring
  rw [this]

lemma pyIdx_none {n : Nat} {i : Int} (h : i < -(n : Int) ∨ (n : Int) ≤ i) :
    pyIdx n i = none := by
  unfold pyIdx
  rcases h with h | h
  · rw [pyShift_of_neg (by omega)]
    have : ¬ (0 ≤ i + (n : Int) ∧ i + (n : Int) < (n : Int)) := by omega
    rw [if_neg this]
  · rw [pyShift_of_nonneg (by omega)]
    have : ¬ (0 ≤ i ∧ i < (n : Int)) := by omega
    rw [if_neg this]


lemma lidx_lt_of_some {α : Type} : ∀ (l : List α) (j : Nat) (a : α),
    l[j]? = some a → j < l.length := by
  intro l
  induction l with
  | nil => intro j a h; simp at h
  | cons x xs ih =>
    intro j a h
    cases j with
    | zero => simp
    | succ j =>
      rw [List.getElem?_cons_succ] at h
      have := ih j a h
      simp only [List.length_cons]
      omega

lemma lidx_of_lt {α : Type} : ∀ (l : List α) (j : Nat),
    j < l.length → ∃ a, l[j]? = some a := by
  intro l
  induction l with
  | nil => intro j h; simp at h
  | cons x xs ih =>
    intro j h
    cases j with
    | zero => exact ⟨x, by simp⟩
    | succ j =>
      simp only [List.length_cons] at h
      rw [List.getElem?_cons_succ]
      exact ih j (by omega)

lemma lmem_of_idx {α : Type} : ∀ (l : List α) (j : Nat) (a : α),
    l[j]? = some a → a ∈ l := by
  intro l
  induction l with
  | nil => intro j a h; simp at h
  | cons x xs ih =>
    intro j a h
    cases j with
    | zero =>
      rw [List.getElem?_cons_zero] at h
      simp only [Option.some.injEq] at h
      simp [h]
    | succ j =>
      rw [List.getElem?_cons_succ] at h
      exact List.mem_cons_of_mem x (ih j a h)

lemma lidx_of_mem {α : Type} : ∀ (l : List α) (a : α),
    a ∈ l → ∃ j : Nat, l[j]? = some a := by
  intro l
  induction l with
  | nil => intro a h; simp at h
  | cons x xs ih =>
    intro a h
    rcases List.mem_cons.mp h with h | h
    · exact ⟨0, by simp [h]⟩
    · obtain ⟨j, hj⟩ := ih a h
      refine ⟨j + 1, ?_⟩
      rw [List.getElem?_cons_succ]
      exact hj

lemma lidx_set_self : ∀ (l : List Nat) (j : Nat) (a : Nat), j < l.length →
    (l.set j a)[j]? = some a := by
  intro l
  induction l with
  | nil => intro j a h; simp at h
  | cons x xs ih =>
    intro j a h
    cases j with
    | zero => simp
    | succ j =>
      simp only [List.length_cons] at h
      simp only [List.set, List.getElem?_cons_succ]
      exact ih j a (by omega)

lemma lidx_set_ne : ∀ (l : List Nat) (j i : Nat) (a : Nat), i ≠ j →
    (l.set j a)[i]? = l[i]? := by
  intro l
  induction l with
  | nil => intro j i a _; simp
  | cons x xs ih =>
    intro j i a hne
    cases j with
    | zero =>
      cases i with
      | zero => exact absurd rfl hne
      | succ i => simp [List.set]
    | succ j =>
      cases i with
      | zero => simp [List.set]
      | succ i =>
        simp only [List.set, List.getElem?_cons_succ]
        exact ih j i a (by omega)

lemma lset_same : ∀ (l : List Nat) (j : Nat) (a : Nat), l[j]? = some a →
    l.set j a = l := by
  intro l
  induction l with
  | nil => intro j a h; simp at h
  | cons x xs ih =>
    intro j a h
    cases j with
    | zero =>
      rw [List.getElem?_cons_zero] at h
      simp only [Option.some.injEq] at h
      simp [List.set, h]
    | succ j =>
      rw [List.getElem?_cons_succ] at h
      simp [List.set, ih j a h]

lemma lmem_set : ∀ (l : List Nat) (j : Nat) (a y : Nat),
    y ∈ l.set j a → y = a ∨ y ∈ l := by
  intro l
  induction l with
  | nil => intro j a y h; simp [List.set] at h
  | cons x xs ih =>
    intro j a y h
    cases j with
    | zero =>
      simp only [List.set] at h
      rcases List.mem_cons.mp h with h | h
      · exact Or.inl h
      · exact Or.inr (List.mem_cons_of_mem x h)
    | succ j =>
      simp only [List.set] at h
      rcases List.mem_cons.mp h with h | h
      · exact Or.inr (by simp [h])
      · rcases ih j a y h with h | h
        · exact Or.inl h
        · exact Or.inr (List.mem_cons_of_mem x h)

lemma lapp_lt {α : Type} : ∀ (l₁ l₂ : List α) (i : Nat), i < l₁.length →
    (l₁ ++ l₂)[i]? = l₁[i]? := by
  intro l₁
  induction l₁ with
  | nil => intro l₂ i h; simp at h
  | cons x xs ih =>
    intro l₂ i h
    cases i with
    | zero => simp
    | succ i =>
      simp only [List.length_cons] at h
      simp only [List.cons_append, List.getElem?_cons_succ]
      exact ih l₂ i (by omega)

lemma lapp_ge {α : Type} : ∀ (l₁ l₂ : List α) (i : Nat), l₁.length ≤ i →
    (l₁ ++ l₂)[i]? = l₂[i - l₁.length]? := by
  intro l₁
  induction l₁ with
  | nil => intro l₂ i _; simp
  | cons x xs ih =>
    intro l₂ i h
    cases i with
    | zero => simp at h
    | succ i =>
      simp only [List.length_cons] at h
      simp only [List.cons_append, List.getElem?_cons_succ, List.length_cons,
        Nat.succ_sub_succ]
      exact ih l₂ i (by omega)

lemma lidx_replicate : ∀ (n j : Nat), j < n →
    (List.replicate n (0 : Nat))[j]? = some 0 := by
  intro n
  induction n with
  | zero => intro j h; omega
  | succ n ih =>
    intro j h
    rw [List.replicate_succ]
    cases j with
    | zero => simp
    | succ j =>
      rw [List.getElem?_cons_succ]
      exact ih j (by omega)

/-- Modelled from the spec: the frontier of ds.stack (the module is not
part of the sources here). A last in first out container of vertex
identifiers; push appends at the top, pop removes and returns the most
recently pushed entry and fails with EmptyFrontierError on an empty
frontier, is_empty tests emptiness. -/
abbrev Stack : Type := List Int

def Stack.empty : Stack := []

def Stack.push (S : Stack) (v : Int) : Stack := v :: S

def Stack.pop (S : Stack) : Except PyErr (Int × Stack) :=
  match S with
  | [] => .error .emptyFrontierError
  | v :: rest => .ok (v, rest)

def Stack.is_empty (S : Stack) : Bool := S.isEmpty

/-- Modelled from the spec: the graph collaborator of ds.graph (the
module is not part of the sources here). A graph in adjacency list
representation: one Python list of neighbour lists, one entry per
vertex; vertex identifiers are dense zero based integers. Neighbour
enumeration indexes that list with Python list semantics. -/
structure Graph where
  adjLists : List (List Nat)

/-- Vertex count of the graph. -/
def Graph.V (g : Graph) : Nat := g.adjLists.length

/-- Modelled from the spec: neighbour enumeration, reading the adjacency
list of a vertex with Python list index semantics. -/
def Graph.adj (g : Graph) (v : Int) : Except PyErr (List Nat) :=
  pyGet g.adjLists v

/-- Well formed graph: every adjacency entry is a valid vertex
identifier, as the data model of the spec requires. -/
def Graph.wf (g : Graph) : Prop :=
  ∀ l ∈ g.adjLists, ∀ w ∈ l, w < g.V

instance (g : Graph) : Decidable g.wf := by
  unfold Graph.wf
  infer_instance

/-- One directed edge step of the graph: w is listed among the
neighbours of v. -/
def Edge (g : Graph) (v w : Nat) : Prop :=
  w ∈ (g.adjLists[v]?).getD []

instance (g : Graph) (v w : Nat) : Decidable (Edge g v w) := by
  unfold Edge
  infer_instance

/-- Reachability by a path of edges. -/
def Reachable (g : Graph) (s w : Nat) : Prop :=
  Relation.ReflTransGen (Edge g) s w

/-- The NEW state constant of the source. -/
abbrev NEW : Nat := 0

/-- The VISITED state constant of the source. -/
abbrev VISITED : Nat := 1

/-- Inner for loop of DepthFirstSearch._dfs: for each neighbour w of the
popped vertex, push w onto the frontier when the state of w is NEW. The
state read follows Python list semantics, so an out of range neighbour
raises IndexError. -/
def pushNew (state : List Nat) : List Nat → Stack → Except PyErr Stack
  | [], S => .ok S
  | w :: ws, S =>
      match pyGet state (w : Int) with
      | .error e => .error e
      | .ok x => if x = NEW then pushNew state ws (S.push (w : Int)) else pushNew state ws S

/-- One iteration body of the while loop of DepthFirstSearch._dfs, given
the vertex v just popped: mark v VISITED, then push the NEW neighbours
of v. -/
def dfsStep (g : Graph) (state : List Nat) (v : Int) (S : Stack) :
    Except PyErr (List Nat × Stack) :=
  match pySet state v VISITED with
  | .error e => .error e
  | .ok state₂ =>
      match g.adj v with
      | .error e => .error e
      | .ok ws =>
          match pushNew state₂ ws S with
          | .error e => .error e
          | .ok S₂ => .ok (state₂, S₂)

/-- The while loop of DepthFirstSearch._dfs as a fuel indexed recursion.
Each iteration performs exactly one pop and consumes one unit of fuel;
the second component of a successful result counts the pops performed.
The fuel used by the engine is proved sufficient below, so the fuel
never cuts the Python loop short. -/
def dfsLoop (g : Graph) (fuel : Nat) (state : List Nat) (S : Stack) :
    Option (Except PyErr (List Nat) × Nat) :=
  if S.is_empty then some (.ok state, 0)
  else
    match fuel with
    | 0 => none
    | fuel' + 1 =>
        match S.pop with
        | .error e => some (.error e, 1)
        | .ok (v, S₁) =>
            match dfsStep g state v S₁ with
            | .error e => some (.error e, 1)
            | .ok (state₂, S₂) =>
                match dfsLoop g fuel' state₂ S₂ with
                | none => none
                | some (r, n) => some (r, n + 1)

/-- Total length of all adjacency lists: the number E of directed edge
slots of the graph. -/
def totalAdj (g : Graph) : Nat := (g.adjLists.map List.length).sum

/-- Fuel given to the loop: one more than the pop bound V + E proved
below, hence never the reason the loop stops. -/
def dfsFuel (g : Graph) : Nat := 1 + g.V + totalAdj g

/-- The whole constructor run of DepthFirstSearch: the state array is
allocated with one NEW entry per vertex, the source is pushed onto an
empty frontier and the loop runs. -/
def dfsRun (g : Graph) (s : Int) : Option (Except PyErr (List Nat) × Nat) :=
  dfsLoop g (dfsFuel g) (List.replicate g.V NEW) (Stack.empty.push s)

/-- Construction of a DepthFirstSearch engine on graph g with source s:
the resulting value is the final state array, or the error the run
raised. The none branch of the fuel indexed loop is unreachable, as
proved below. -/
def DepthFirstSearch (g : Graph) (s : Int) : Except PyErr (List Nat) :=
  match dfsRun g s with
  | some (r, _) => r
  | none => .error .indexError

/-- Query is_visited of the source: reads the state entry of the vertex
with Python list semantics and compares it with VISITED. -/
def is_visited (state : List Nat) (v : Int) : Except PyErr Bool :=
  match pyGet state v with
  | .error e => .error e
  | .ok x => .ok (x == VISITED)

/-- Sum of the adjacency list lengths of the still NEW vertices: the
potential used to bound the remaining work of the loop. -/
def degSum : List Nat → List (List Nat) → Nat
  | [], _ => 0
  | _ :: _, [] => 0
  | x :: st, l :: ls => (if x = NEW then l.length else 0) + degSum st ls

/-- The block of frontier entries pushed by one execution of the inner
for loop. -/
def blockOf (state : List Nat) (ws : List Nat) : List Int :=
  List.map (fun w : Nat => (w : Int)) ((ws.filter fun w => decide (state[w]? = some NEW)).reverse)

lemma pySet_ok_of {α : Type} {l : List α} {i : Int} {j : Nat} (a : α)
    (h : pyIdx l.length i = some j) : pySet l i a = .ok (l.set j a) := by
  simp [pySet, h]

lemma pySet_ok_elim {α : Type} {l : List α} {i : Int} {a : α} {l₂ : List α}
    (h : pySet l i a = .ok l₂) : ∃ j, pyIdx l.length i = some j ∧ l₂ = l.set j a := by
  unfold pySet at h
  cases hp : pyIdx l.length i with
  | none => rw [hp] at h; exact absurd h (by simp)
  | some j =>
      rw [hp] at h
      simp only [Except.ok.injEq] at h
      exact ⟨j, rfl, h.symm⟩

lemma pySet_err_of {α : Type} {l : List α} {i : Int} (a : α)
    (h : pyIdx l.length i = none) : pySet l i a = .error .indexError := by
  simp [pySet, h]

lemma pyGet_ok_of {α : Type} {l : List α} {i : Int} {j : Nat} {x : α}
    (hj : pyIdx l.length i = some j) (hx : l[j]? = some x) : pyGet l i = .ok x := by
  simp [pyGet, hj, hx]

lemma pyGet_err_of {α : Type} {l : List α} {i : Int}
    (h : pyIdx l.length i = none) : pyGet l i = .error .indexError := by
  simp [pyGet, h]

lemma pyGet_nat_some {α : Type} {l : List α} {w : Nat} {x : α} (h : l[w]? = some x) :
    pyGet l (w : Int) = .ok x :=
  pyGet_ok_of (pyIdx_nat (lidx_lt_of_some _ _ _ h)) h

lemma pyGet_nat_none {α : Type} {l : List α} {w : Nat} (h : l[w]? = none) :
    pyGet l (w : Int) = .error .indexError := by
  have hw : ¬ (w < l.length) := by
    intro hlt
    obtain ⟨a, ha⟩ := lidx_of_lt _ _ hlt
    rw [h] at ha
    exact Option.noConfusion ha
  exact pyGet_err_of (pyIdx_none (Or.inr (by omega)))

lemma pyGet_ok_elim {α : Type} {l : List α} {i : Int} {x : α}
    (h : pyGet l i = .ok x) : ∃ j, pyIdx l.length i = some j ∧ l[j]? = some x := by
  unfold pyGet at h
  cases hp : pyIdx l.length i with
  | none => rw [hp] at h; exact absurd h (by simp)
  | some j =>
      simp only [hp] at h
      cases hg : l[j]? with
      | none => simp only [hg] at h; exact absurd h (by simp)
      | some a =>
          simp only [hg, Except.ok.injEq] at h
          exact ⟨j, rfl, by rw [hg, h]⟩

lemma blockOf_nil (st : List Nat) : blockOf st [] = [] := rfl

lemma blockOf_cons_new {st : List Nat} {w x : Nat} (ws : List Nat)
    (hg : st[w]? = some x) (hx : x = NEW) :
    blockOf st (w :: ws) = blockOf st ws ++ [(w : Int)] := by
  subst hx
  unfold blockOf
  rw [List.filter_cons_of_pos (by simp [hg]), List.reverse_cons, List.map_append]
  rfl

lemma blockOf_cons_old {st : List Nat} {w x : Nat} (ws : List Nat)
    (hg : st[w]? = some x) (hx : x ≠ NEW) :
    blockOf st (w :: ws) = blockOf st ws := by
  unfold blockOf
  rw [List.filter_cons_of_neg (by simp [hg, hx])]

lemma blockOf_mem_elim {st : List Nat} {ws : List Nat} {u : Int}
    (h : u ∈ blockOf st ws) : ∃ w : Nat, u = (w : Int) ∧ w ∈ ws ∧ st[w]? = some NEW := by
  unfold blockOf at h
  obtain ⟨w, hw, rfl⟩ := List.mem_map.mp h
  rw [List.mem_reverse] at hw
  obtain ⟨hmem, hnew⟩ := List.mem_filter.mp hw
  exact ⟨w, rfl, hmem, of_decide_eq_true hnew⟩

lemma blockOf_mem_intro {st : List Nat} {ws : List Nat} {w : Nat}
    (hmem : w ∈ ws) (hnew : st[w]? = some NEW) : (w : Int) ∈ blockOf st ws := by
  unfold blockOf
  exact List.mem_map_of_mem _ (List.mem_reverse.mpr (List.mem_filter.mpr ⟨hmem, by simp [hnew]⟩))

lemma blockOf_len_le (st : List Nat) (ws : List Nat) :
    (blockOf st ws).length ≤ ws.length := by
  unfold blockOf
  rw [List.length_map, List.length_reverse]
  exact List.length_filter_le _ _

lemma blockOf_empty_of {st : List Nat} {ws : List Nat}
    (h : ∀ w ∈ ws, st[w]? ≠ some NEW) : blockOf st ws = [] := by
  unfold blockOf
  have hf : ws.filter (fun w => decide (st[w]? = some NEW)) = [] := by
    rw [List.filter_eq_nil_iff]
    intro w hw
    simp [h w hw]
  rw [hf]
  rfl

lemma pushNew_ok_inv : ∀ (st : List Nat) (ws : List Nat) (S S₂ : Stack),
    pushNew st ws S = .ok S₂ → S₂ = blockOf st ws ++ S := by
  intro st ws
  induction ws with
  | nil =>
      intro S S₂ h
      simp only [pushNew, Except.ok.injEq] at h
      rw [blockOf_nil, List.nil_append, h]
  | cons w ws ih =>
      intro S S₂ h
      unfold pushNew at h
      cases hg : st[w]? with
      | none =>
          rw [pyGet_nat_none hg] at h
          exact absurd h (by simp)
      | some x =>
          simp only [pyGet_nat_some hg] at h
          by_cases hx : x = NEW
          · rw [if_pos hx] at h
            rw [ih _ _ h, blockOf_cons_new ws hg hx]
            simp [Stack.push]
          · rw [if_neg hx] at h
            rw [ih _ _ h, blockOf_cons_old ws hg hx]

lemma pushNew_total : ∀ (st : List Nat) (ws : List Nat) (S : Stack),
    (∀ w ∈ ws, w < st.length) → pushNew st ws S = .ok (blockOf st ws ++ S) := by
  intro st ws
  induction ws with
  | nil => intro S _; simp [pushNew, blockOf_nil]
  | cons w ws ih =>
      intro S hws
      obtain ⟨x, hx⟩ := lidx_of_lt st w (hws w (List.mem_cons_self w ws))
      unfold pushNew
      simp only [pyGet_nat_some hx]
      by_cases hnew : x = NEW
      · rw [if_pos hnew, ih _ (fun u hu => hws u (List.mem_cons_of_mem w hu)),
          blockOf_cons_new ws hx hnew]
        simp [Stack.push]
      · rw [if_neg hnew, ih _ (fun u hu => hws u (List.mem_cons_of_mem w hu)),
          blockOf_cons_old ws hx hnew]

lemma degSum_le : ∀ (st : List Nat) (ls : List (List Nat)),
    degSum st ls ≤ (ls.map List.length).sum := by
  intro st
  induction st with
  | nil => intro ls; simp [degSum]
  | cons x st ih =>
      intro ls
      cases ls with
      | nil => simp [degSum]
      | cons l ls =>
          simp only [degSum, List.map_cons, List.sum_cons]
          have := ih ls
          by_cases hx : x = NEW
          · rw [if_pos hx]; omega
          · rw [if_neg hx]; omega

lemma degSum_replicate : ∀ (ls : List (List Nat)),
    degSum (List.replicate ls.length NEW) ls = (ls.map List.length).sum := by
  intro ls
  induction ls with
  | nil => simp [degSum]
  | cons l ls ih =>
      rw [List.length_cons, List.replicate_succ]
      show (if NEW = NEW then l.length else 0) + degSum (List.replicate ls.length NEW) ls = _
      rw [if_pos rfl, ih, List.map_cons, List.sum_cons]

lemma degSum_set : ∀ (st : List Nat) (ls : List (List Nat)) (j : Nat) (l : List Nat),
    st[j]? = some NEW → ls[j]? = some l →
    degSum (st.set j VISITED) ls + l.length = degSum st ls := by
  intro st
  induction st with
  | nil => intro ls j l h _; simp at h
  | cons x st ih =>
      intro ls j l hst hls
      cases ls with
      | nil => simp at hls
      | cons l₀ ls =>
          cases j with
          | zero =>
              rw [List.getElem?_cons_zero] at hst hls
              simp only [Option.some.injEq] at hst hls
              show degSum (VISITED :: st) (l₀ :: ls) + l.length = degSum (x :: st) (l₀ :: ls)
              simp only [degSum]
              rw [hst, hls, if_pos rfl, if_neg (by decide)]
              omega
          | succ j =>
              rw [List.getElem?_cons_succ] at hst hls
              show degSum (x :: st.set j VISITED) (l₀ :: ls) + l.length =
                degSum (x :: st) (l₀ :: ls)
              simp only [degSum]
              have := ih ls j l hst hls
              by_cases hx : x = NEW
              · rw [if_pos hx]
                omega
              · rw [if_neg hx]
                omega

lemma dfsLoop_nil (g : Graph) (fuel : Nat) (state : List Nat) :
    dfsLoop g fuel state [] = some (.ok state, 0) := by
  rw [dfsLoop.eq_def]
  rfl

lemma dfsLoop_zero_cons (g : Graph) (state : List Nat) (v : Int) (S : Stack) :
    dfsLoop g 0 state (v :: S) = none := by
  rw [dfsLoop.eq_def]
  rfl

lemma dfsLoop_succ_cons (g : Graph) (fuel : Nat) (state : List Nat) (v : Int) (S : Stack) :
    dfsLoop g (fuel + 1) state (v :: S) =
      match dfsStep g state v S with
      | .error e => some (.error e, 1)
      | .ok (state₂, S₂) =>
          match dfsLoop g fuel state₂ S₂ with
          | none => none
          | some (r, n) => some (r, n + 1) := by
  rw [dfsLoop.eq_def]
  rfl

/-- Positional frontier invariant: whenever a frontier entry denotes an
already VISITED vertex, every still NEW neighbour of that vertex occurs
strictly closer to the top of the frontier. It makes the pop of an
already VISITED vertex push nothing, which drives the termination
measure down. -/
def StackInv (g : Graph) (state : List Nat) (S : Stack) : Prop :=
  ∀ (i : Nat) (v : Int) (j : Nat) (ws : List Nat),
    S[i]? = some v → pyIdx state.length v = some j →
    state[j]? = some VISITED → g.adjLists[j]? = some ws →
    ∀ w ∈ ws, state[w]? = some NEW →
      ∃ k : Nat, k < i ∧ ∃ u : Int, S[k]? = some u ∧ pyIdx state.length u = some w

/-- Some frontier entry denotes vertex w. -/
def InStack (n : Nat) (S : Stack) (w : Nat) : Prop :=
  ∃ u ∈ S, pyIdx n u = some w

lemma dfsStep_ok_elim {g : Graph} {state : List Nat} {v : Int} {S : Stack}
    {state₂ : List Nat} {S₂ : Stack}
    (h : dfsStep g state v S = .ok (state₂, S₂))
    (hlen : state.length = g.adjLists.length) :
    ∃ (j : Nat) (ws : List Nat), pyIdx state.length v = some j ∧
      state₂ = state.set j VISITED ∧
      g.adjLists[j]? = some ws ∧ pushNew state₂ ws S = .ok S₂ := by
  unfold dfsStep at h
  cases hset : pySet state v VISITED with
  | error e => rw [hset] at h; exact absurd h (by simp)
  | ok st₀ =>
      simp only [hset] at h
      obtain ⟨j, hj, hst⟩ := pySet_ok_elim hset
      cases hadj : g.adj v with
      | error e => rw [hadj] at h; exact absurd h (by simp)
      | ok ws =>
          simp only [hadj] at h
          cases hpush : pushNew st₀ ws S with
          | error e => rw [hpush] at h; exact absurd h (by simp)
          | ok S₀ =>
              simp only [hpush, Except.ok.injEq, Prod.mk.injEq] at h
              obtain ⟨h1, h2⟩ := h
              subst h1
              subst h2
              obtain ⟨j₂, hj₂, hws⟩ := pyGet_ok_elim hadj
              rw [← hlen] at hj₂
              rw [hj] at hj₂
              injection hj₂ with hje
              subst hje
              exact ⟨j, ws, hj, hst, hws, hpush⟩

lemma step_preserves {g : Graph} {state : List Nat} {v : Int} {S S₂ : Stack}
    {state₂ : List Nat}
    (hlen : state.length = g.adjLists.length)
    (hvals : ∀ y ∈ state, y ≤ 1)
    (hinv : StackInv g state (v :: S))
    (hstep : dfsStep g state v S = .ok (state₂, S₂)) :
    state₂.length = state.length ∧
    (∀ y ∈ state₂, y ≤ 1) ∧
    StackInv g state₂ S₂ ∧
    S₂.length + degSum state₂ g.adjLists + 1 ≤ (v :: S).length + degSum state g.adjLists := by
  obtain ⟨j, ws, hj, hst2, hws, hpush⟩ := dfsStep_ok_elim hstep hlen
  have hjlt : j < state.length := pyIdx_lt hj
  have hlen₂ : state₂.length = state.length := by rw [hst2, List.length_set]
  have hvals₂ : ∀ y ∈ state₂, y ≤ 1 := by
    intro y hy
    rw [hst2] at hy
    rcases lmem_set _ _ _ _ hy with h | h
    · rw [h]
    · exact hvals y h
  have hS₂ : S₂ = blockOf state₂ ws ++ S := pushNew_ok_inv _ _ _ _ hpush
  obtain ⟨x, hx⟩ := lidx_of_lt state j hjlt
  have hx1 : x ≤ 1 := hvals x (lmem_of_idx _ _ _ hx)
  by_cases hxn : x = NEW
  · -- the popped vertex was NEW
    rw [hxn] at hx
    have hdeg : degSum state₂ g.adjLists + ws.length = degSum state g.adjLists := by
      rw [hst2]
      exact degSum_set state g.adjLists j ws hx hws
    refine ⟨hlen₂, hvals₂, ?_, ?_⟩
    · -- the invariant survives the step
      intro i v₁ j₁ ws₁ hget hidx hvis hadj₁ w hw hwNew
      rw [hlen₂] at hidx
      have hwj : w ≠ j := by
        intro he
        subst he
        rw [hst2, lidx_set_self state w VISITED hjlt] at hwNew
        simp at hwNew
      have hwOld : state[w]? = some NEW := by
        rw [hst2, lidx_set_ne state j w VISITED hwj] at hwNew
        exact hwNew
      by_cases him : i < (blockOf state₂ ws).length
      · -- an entry of the pushed block is still NEW, it cannot be VISITED
        rw [hS₂, lapp_lt _ _ _ him] at hget
        obtain ⟨w₁, hww, hw₁mem, hw₁new⟩ := blockOf_mem_elim (lmem_of_idx _ _ _ hget)
        subst hww
        have hw₁lt : w₁ < state.length := by
          have hh := lidx_lt_of_some _ _ _ hw₁new
          rw [hlen₂] at hh
          exact hh
        rw [pyIdx_nat hw₁lt] at hidx
        injection hidx with hje
        subst hje
        rw [hw₁new] at hvis
        simp at hvis
      · push_neg at him
        rw [hS₂, lapp_ge _ _ _ him] at hget
        have hgetOld : (v :: S)[(i - (blockOf state₂ ws).length) + 1]? = some v₁ := by
          rw [List.getElem?_cons_succ]
          exact hget
        by_cases hj₁j : j₁ = j
        · -- a deeper occurrence of the vertex just marked: its NEW
          -- neighbours are exactly the entries of the pushed block
          subst hj₁j
          rw [hws] at hadj₁
          injection hadj₁ with hwse
          subst hwse
          obtain ⟨k, hk⟩ := lidx_of_mem _ _ (blockOf_mem_intro hw hwNew)
          have hkm : k < (blockOf state₂ ws).length := lidx_lt_of_some _ _ _ hk
          refine ⟨k, by omega, (w : Int), ?_, ?_⟩
          · rw [hS₂, lapp_lt _ _ _ hkm]
            exact hk
          · have hwlt : w < state₂.length := lidx_lt_of_some _ _ _ hwNew
            exact pyIdx_nat hwlt
        · have hvisOld : state[j₁]? = some VISITED := by
            rw [hst2, lidx_set_ne state j j₁ VISITED hj₁j] at hvis
            exact hvis
          obtain ⟨k, hki, u, hku, hwu⟩ :=
            hinv ((i - (blockOf state₂ ws).length) + 1) v₁ j₁ ws₁ hgetOld hidx hvisOld hadj₁ w hw hwOld
          cases k with
          | zero =>
              simp only [List.getElem?_cons_zero, Option.some.injEq] at hku
              subst hku
              rw [hj] at hwu
              injection hwu with hje
              exact absurd hje.symm hwj
          | succ k₀ =>
              rw [List.getElem?_cons_succ] at hku
              refine ⟨(blockOf state₂ ws).length + k₀, by omega, u, ?_, ?_⟩
              · rw [hS₂, lapp_ge _ _ _ (by omega)]
                have he : (blockOf state₂ ws).length + k₀ - (blockOf state₂ ws).length = k₀ := by
                  omega
                rw [he]
                exact hku
              · rw [hlen₂]
                exact hwu
    · -- the measure strictly decreases
      have h1 : S₂.length ≤ ws.length + S.length := by
        rw [hS₂, List.length_append]
        have := blockOf_len_le state₂ ws
        omega
      simp only [List.length_cons]
      omega
  · -- the popped vertex was already VISITED: nothing is pushed
    have hxn0 : ¬ x = 0 := hxn
    have hxv : x = VISITED := by
      show x = 1
      omega
    rw [hxv] at hx
    have hst2e : state₂ = state := by
      rw [hst2]
      exact lset_same state j VISITED hx
    have hnone : ∀ w ∈ ws, state[w]? ≠ some NEW := by
      intro w hw hwNew
      obtain ⟨k, hk, -⟩ := hinv 0 v j ws (by simp) hj hx hws w hw hwNew
      omega
    have hblk : blockOf state₂ ws = [] := by
      rw [hst2e]
      exact blockOf_empty_of hnone
    have hS₂e : S₂ = S := by
      rw [hS₂, hblk, List.nil_append]
    refine ⟨hlen₂, hvals₂, ?_, ?_⟩
    · intro i v₁ j₁ ws₁ hget hidx hvis hadj₁ w hw hwNew
      rw [hst2e] at hvis hwNew
      rw [hlen₂] at hidx
      rw [hS₂e] at hget
      have hgetOld : (v :: S)[i + 1]? = some v₁ := by
        rw [List.getElem?_cons_succ]
        exact hget
      obtain ⟨k, hki, u, hku, hwu⟩ := hinv (i + 1) v₁ j₁ ws₁ hgetOld hidx hvis hadj₁ w hw hwNew
      cases k with
      | zero =>
          simp only [List.getElem?_cons_zero, Option.some.injEq] at hku
          subst hku
          rw [hj] at hwu
          injection hwu with hje
          rw [← hje] at hwNew
          rw [hx] at hwNew
          simp at hwNew
      | succ k₀ =>
          rw [List.getElem?_cons_succ] at hku
          refine ⟨k₀, by omega, u, ?_, ?_⟩
          · rw [hS₂e]
            exact hku
          · rw [hlen₂]
            exact hwu
    · rw [hS₂e, hst2e]
      simp only [List.length_cons]
      omega

lemma dfsLoop_total (g : Graph) : ∀ (fuel : Nat) (state : List Nat) (S : Stack),
    state.length = g.adjLists.length →
    (∀ y ∈ state, y ≤ 1) →
    StackInv g state S →
    S.length + degSum state g.adjLists ≤ fuel →
    ∃ out, dfsLoop g fuel state S = some out ∧
      out.2 ≤ S.length + degSum state g.adjLists := by
  intro fuel
  induction fuel with
  | zero =>
      intro state S hlen hvals hinv hμ
      cases S with
      | nil => exact ⟨(.ok state, 0), dfsLoop_nil g 0 state, by simp⟩
      | cons v S =>
          simp only [List.length_cons] at hμ
          omega
  | succ fuel ih =>
      intro state S hlen hvals hinv hμ
      cases S with
      | nil => exact ⟨(.ok state, 0), dfsLoop_nil g _ state, by simp⟩
      | cons v S =>
          rw [dfsLoop_succ_cons]
          cases hstep : dfsStep g state v S with
          | error e =>
              refine ⟨(.error e, 1), rfl, ?_⟩
              simp only [List.length_cons]
              omega
          | ok p =>
              obtain ⟨state₂, S₂⟩ := p
              obtain ⟨hlen₂, hvals₂, hinv₂, hμ₂⟩ := step_preserves hlen hvals hinv hstep
              have hlen₂x : state₂.length = g.adjLists.length := by rw [hlen₂, hlen]
              have hμx : S₂.length + degSum state₂ g.adjLists ≤ fuel := by
                simp only [List.length_cons] at hμ hμ₂
                omega
              obtain ⟨out, hout, hcnt⟩ := ih state₂ S₂ hlen₂x hvals₂ hinv₂ hμx
              obtain ⟨r, n⟩ := out
              show ∃ out,
                  (match dfsLoop g fuel state₂ S₂ with
                   | none => none
                   | some (r, n) => some (r, n + 1)) = some out ∧
                  out.2 ≤ (v :: S).length + degSum state g.adjLists
              rw [hout]
              refine ⟨(r, n + 1), rfl, ?_⟩
              simp only [List.length_cons] at hμ₂ ⊢
              omega

lemma replicate_len (g : Graph) : (List.replicate g.V NEW).length = g.adjLists.length := by
  rw [List.length_replicate]
  rfl

lemma replicate_vals (g : Graph) : ∀ y ∈ List.replicate g.V NEW, y ≤ 1 := by
  intro y hy
  rw [List.eq_of_mem_replicate hy]
  decide

lemma replicate_inv (g : Graph) (S : Stack) : StackInv g (List.replicate g.V NEW) S := by
  intro i v j ws hget hidx hvis hadj w hw hwNew
  exfalso
  have hjlt := lidx_lt_of_some _ _ _ hvis
  rw [List.length_replicate] at hjlt
  rw [lidx_replicate g.V j hjlt] at hvis
  simp at hvis

/-- The loop of the engine always halts inside its fuel, with at most
one plus E pops, on every input whatsoever. -/
lemma dfsRun_some (g : Graph) (s : Int) :
    ∃ out, dfsRun g s = some out ∧ out.2 ≤ 1 + totalAdj g := by
  have hdeg : degSum (List.replicate g.V NEW) g.adjLists = totalAdj g :=
    degSum_replicate g.adjLists
  have hμ : (Stack.empty.push s).length + degSum (List.replicate g.V NEW) g.adjLists ≤
      dfsFuel g := by
    show 1 + degSum (List.replicate g.V NEW) g.adjLists ≤ 1 + g.V + totalAdj g
    omega
  obtain ⟨out, hout, hcnt⟩ := dfsLoop_total g (dfsFuel g) (List.replicate g.V NEW)
    (Stack.empty.push s) (replicate_len g) (replicate_vals g) (replicate_inv g _) hμ
  refine ⟨out, hout, ?_⟩
  have : (Stack.empty.push s).length = 1 := rfl
  rw [this, hdeg] at hcnt
  exact hcnt

lemma inStack_nil_elim {n : Nat} {w : Nat} (h : InStack n [] w) : False := by
  obtain ⟨u, hu, -⟩ := h
  simp at hu

lemma edge_intro {g : Graph} {j w : Nat} {ws : List Nat} (hws : g.adjLists[j]? = some ws)
    (hw : w ∈ ws) : Edge g j w := by
  unfold Edge
  rw [hws]
  simpa using hw

lemma edge_elim {g : Graph} {j w : Nat} (h : Edge g j w) :
    ∃ ws, g.adjLists[j]? = some ws ∧ w ∈ ws := by
  unfold Edge at h
  cases hj : g.adjLists[j]? with
  | none => rw [hj] at h; simp at h
  | some ws => rw [hj] at h; exact ⟨ws, rfl, by simpa using h⟩

lemma wf_target_lt {g : Graph} (hwf : g.wf) {j w : Nat} (h : Edge g j w) : w < g.V := by
  obtain ⟨ws, hws, hw⟩ := edge_elim h
  exact hwf ws (lmem_of_idx _ _ _ hws) w hw

lemma dfs_go (g : Graph) (s : Nat) (hwf : g.wf) : ∀ (fuel : Nat) (state : List Nat) (S : Stack),
    state.length = g.adjLists.length →
    (∀ y ∈ state, y ≤ 1) →
    StackInv g state S →
    (∀ u ∈ S, ∃ j : Nat, pyIdx state.length u = some j ∧ Reachable g s j) →
    (∀ j : Nat, state[j]? = some VISITED → Reachable g s j) →
    (∀ (j : Nat) (ws : List Nat), state[j]? = some VISITED → g.adjLists[j]? = some ws →
        ∀ w ∈ ws, state[w]? = some VISITED ∨ InStack state.length S w) →
    (state[s]? = some VISITED ∨ InStack state.length S s) →
    S.length + degSum state g.adjLists ≤ fuel →
    ∃ (st : List Nat) (n : Nat), dfsLoop g fuel state S = some (.ok st, n) ∧
      st.length = g.adjLists.length ∧
      (∀ y ∈ st, y ≤ 1) ∧
      (∀ j : Nat, st[j]? = some VISITED → Reachable g s j) ∧
      (∀ (j : Nat) (ws : List Nat), st[j]? = some VISITED → g.adjLists[j]? = some ws →
          ∀ w ∈ ws, st[w]? = some VISITED) ∧
      st[s]? = some VISITED := by
  intro fuel
  induction fuel with
  | zero =>
      intro state S hlen hvals hinv hsound hvsound hclosed hsrc hμ
      cases S with
      | cons v S =>
          simp only [List.length_cons] at hμ
          omega
      | nil =>
          refine ⟨state, 0, dfsLoop_nil g 0 state, hlen, hvals, hvsound, ?_, ?_⟩
          · intro j ws hvis hadj w hw
            rcases hclosed j ws hvis hadj w hw with h | h
            · exact h
            · exact absurd h inStack_nil_elim
          · rcases hsrc with h | h
            · exact h
            · exact absurd h inStack_nil_elim
  | succ fuel ih =>
      intro state S hlen hvals hinv hsound hvsound hclosed hsrc hμ
      cases S with
      | nil =>
          refine ⟨state, 0, dfsLoop_nil g _ state, hlen, hvals, hvsound, ?_, ?_⟩
          · intro j ws hvis hadj w hw
            rcases hclosed j ws hvis hadj w hw with h | h
            · exact h
            · exact absurd h inStack_nil_elim
          · rcases hsrc with h | h
            · exact h
            · exact absurd h inStack_nil_elim
      | cons v S =>
          obtain ⟨j, hj, hreach⟩ := hsound v (List.mem_cons_self v S)
          have hjlt : j < state.length := pyIdx_lt hj
          have hj' := hj
          rw [hlen] at hj'
          have hjlt' : j < g.adjLists.length := by rw [← hlen]; exact hjlt
          obtain ⟨ws, hws⟩ := lidx_of_lt g.adjLists j hjlt'
          have hwsmem : ws ∈ g.adjLists := lmem_of_idx _ _ _ hws
          have hwlt : ∀ w ∈ ws, w < state.length := by
            intro w hw
            have := hwf ws hwsmem w hw
            rw [hlen]
            exact this
          have hset : pySet state v VISITED = .ok (state.set j VISITED) :=
            pySet_ok_of VISITED hj
          have hadjv : g.adj v = .ok ws := pyGet_ok_of hj' hws
          have hwlt₂ : ∀ w ∈ ws, w < (state.set j VISITED).length := by
            intro w hw
            rw [List.length_set]
            exact hwlt w hw
          have hpushv : pushNew (state.set j VISITED) ws S =
              .ok (blockOf (state.set j VISITED) ws ++ S) :=
            pushNew_total _ _ _ hwlt₂
          have hstep : dfsStep g state v S =
              .ok (state.set j VISITED, blockOf (state.set j VISITED) ws ++ S) := by
            unfold dfsStep
            simp only [hset, hadjv, hpushv]
          obtain ⟨hlen₂, hvals₂, hinv₂, hμ₂⟩ := step_preserves hlen hvals hinv hstep
          have hstate₂ : (state.set j VISITED).length = g.adjLists.length := by
            rw [hlen₂]
            exact hlen
          have hreach₂ : ∀ w ∈ ws, (state.set j VISITED)[w]? = some NEW → Reachable g s w :=
            fun w hw _ => Relation.ReflTransGen.tail hreach (edge_intro hws hw)
          have hsound₂ : ∀ u ∈ blockOf (state.set j VISITED) ws ++ S,
              ∃ j₁ : Nat, pyIdx (state.set j VISITED).length u = some j₁ ∧ Reachable g s j₁ := by
            intro u hu
            rcases List.mem_append.mp hu with hu | hu
            · obtain ⟨w, rfl, hwmem, hwnew⟩ := blockOf_mem_elim hu
              refine ⟨w, ?_, Relation.ReflTransGen.tail hreach (edge_intro hws hwmem)⟩
              exact pyIdx_nat (lidx_lt_of_some _ _ _ hwnew)
            · obtain ⟨j₁, hj₁, hr₁⟩ := hsound u (List.mem_cons_of_mem v hu)
              refine ⟨j₁, ?_, hr₁⟩
              rw [hlen₂]
              exact hj₁
          have hvsound₂ : ∀ j₁ : Nat, (state.set j VISITED)[j₁]? = some VISITED →
              Reachable g s j₁ := by
            intro j₁ hvis
            by_cases hje : j₁ = j
            · rw [hje]
              exact hreach
            · rw [lidx_set_ne state j j₁ VISITED hje] at hvis
              exact hvsound j₁ hvis
          have hclosed₂ : ∀ (j₁ : Nat) (ws₁ : List Nat),
              (state.set j VISITED)[j₁]? = some VISITED → g.adjLists[j₁]? = some ws₁ →
              ∀ w ∈ ws₁, (state.set j VISITED)[w]? = some VISITED ∨
                InStack (state.set j VISITED).length (blockOf (state.set j VISITED) ws ++ S) w := by
            intro j₁ ws₁ hvis hadj₁ w hw
            by_cases hje : j₁ = j
            · rw [hje] at hadj₁
              rw [hws] at hadj₁
              injection hadj₁ with hwse
              subst hwse
              have hwl : w < (state.set j VISITED).length := hwlt₂ w hw
              obtain ⟨xw, hxw⟩ := lidx_of_lt _ w hwl
              have hxw1 : xw ≤ 1 := hvals₂ xw (lmem_of_idx _ _ _ hxw)
              by_cases hxn : xw = NEW
              · right
                rw [hxn] at hxw
                refine ⟨(w : Int), List.mem_append_left _ (blockOf_mem_intro hw hxw), ?_⟩
                exact pyIdx_nat hwl
              · left
                have hxn0 : ¬ xw = 0 := hxn
                have hxv : xw = VISITED := by
                  show xw = 1
                  omega
                rw [hxv] at hxw
                exact hxw
            · rw [lidx_set_ne state j j₁ VISITED hje] at hvis
              rcases hclosed j₁ ws₁ hvis hadj₁ w hw with h | h
              · left
                by_cases hwj : w = j
                · rw [hwj]
                  exact lidx_set_self state j VISITED hjlt
                · rw [lidx_set_ne state j w VISITED hwj]
                  exact h
              · obtain ⟨u, hu, hwu⟩ := h
                rcases List.mem_cons.mp hu with hu | hu
                · subst hu
                  rw [hj] at hwu
                  injection hwu with hje₂
                  left
                  rw [← hje₂]
                  exact lidx_set_self state j VISITED hjlt
                · right
                  refine ⟨u, List.mem_append_right _ hu, ?_⟩
                  rw [hlen₂]
                  exact hwu
          have hsrc₂ : (state.set j VISITED)[s]? = some VISITED ∨
              InStack (state.set j VISITED).length (blockOf (state.set j VISITED) ws ++ S) s := by
            rcases hsrc with h | h
            · left
              by_cases hse : s = j
              · rw [hse]
                exact lidx_set_self state j VISITED hjlt
              · rw [lidx_set_ne state j s VISITED hse]
                exact h
            · obtain ⟨u, hu, hsu⟩ := h
              rcases List.mem_cons.mp hu with hu | hu
              · subst hu
                rw [hj] at hsu
                injection hsu with hje₂
                left
                rw [← hje₂]
                exact lidx_set_self state j VISITED hjlt
              · right
                refine ⟨u, List.mem_append_right _ hu, ?_⟩
                rw [hlen₂]
                exact hsu
          have hμ₃ : (blockOf (state.set j VISITED) ws ++ S).length +
              degSum (state.set j VISITED) g.adjLists ≤ fuel := by
            simp only [List.length_cons] at hμ hμ₂
            omega
          obtain ⟨st, n, hloop, hstlen, hstvals, hstsound, hstclosed, hstsrc⟩ :=
            ih (state.set j VISITED) (blockOf (state.set j VISITED) ws ++ S)
              hstate₂ hvals₂ hinv₂ hsound₂ hvsound₂ hclosed₂ hsrc₂ hμ₃
          rw [dfsLoop_succ_cons]
          show ∃ (st : List Nat) (n : Nat),
              (match dfsStep g state v S with
               | .error e => some (.error e, 1)
               | .ok (state₂, S₂) =>
                   match dfsLoop g fuel state₂ S₂ with
                   | none => none
                   | some (r, n) => some (r, n + 1)) = some (.ok st, n) ∧
              st.length = g.adjLists.length ∧
              (∀ y ∈ st, y ≤ 1) ∧
              (∀ j : Nat, st[j]? = some VISITED → Reachable g s j) ∧
              (∀ (j : Nat) (ws : List Nat), st[j]? = some VISITED → g.adjLists[j]? = some ws →
                  ∀ w ∈ ws, st[w]? = some VISITED) ∧
              st[s]? = some VISITED
          rw [hstep]
          show ∃ (st : List Nat) (n : Nat),
              (match dfsLoop g fuel (state.set j VISITED)
                  (blockOf (state.set j VISITED) ws ++ S) with
               | none => none
               | some (r, n) => some (r, n + 1)) = some (.ok st, n) ∧
              st.length = g.adjLists.length ∧
              (∀ y ∈ st, y ≤ 1) ∧
              (∀ j : Nat, st[j]? = some VISITED → Reachable g s j) ∧
              (∀ (j : Nat) (ws : List Nat), st[j]? = some VISITED → g.adjLists[j]? = some ws →
                  ∀ w ∈ ws, st[w]? = some VISITED) ∧
              st[s]? = some VISITED
          rw [hloop]
          exact ⟨st, n + 1, rfl, hstlen, hstvals, hstsound, hstclosed, hstsrc⟩

lemma dfs_of_run {g : Graph} {s : Int} {st : List Nat} {n : Nat}
    (h : dfsRun g s = some (.ok st, n)) : DepthFirstSearch g s = .ok st := by
  unfold DepthFirstSearch
  rw [h]

lemma is_visited_ok_of {st : List Nat} {v : Int} {j : Nat} {x : Nat}
    (hj : pyIdx st.length v = some j) (hx : st[j]? = some x) :
    is_visited st v = .ok (x == VISITED) := by
  unfold is_visited
  simp only [pyGet_ok_of hj hx]

lemma is_visited_err_of {st : List Nat} {v : Int} (h : pyIdx st.length v = none) :
    is_visited st v = .error .indexError := by
  unfold is_visited
  simp only [pyGet_err_of h]

/-- Main run lemma: for a well formed graph and a valid source the
constructor run halts successfully and the final state array holds
VISITED exactly at the vertices reachable from the source. -/
lemma dfs_main (g : Graph) (s : Nat) (hwf : g.wf) (hs : s < g.V) :
    ∃ (st : List Nat) (n : Nat), dfsRun g (s : Int) = some (.ok st, n) ∧
      st.length = g.V ∧ (∀ y ∈ st, y ≤ 1) ∧
      (∀ j : Nat, (st[j]? = some VISITED ↔ Reachable g s j)) := by
  have hrep : (List.replicate g.V NEW).length = g.V := List.length_replicate _ _
  have hsound : ∀ u ∈ Stack.empty.push (s : Int),
      ∃ j : Nat, pyIdx (List.replicate g.V NEW).length u = some j ∧ Reachable g s j := by
    intro u hu
    have hus : u = (s : Int) := List.mem_singleton.mp hu
    rw [hus, hrep]
    exact ⟨s, pyIdx_nat hs, Relation.ReflTransGen.refl⟩
  have hvsound : ∀ j : Nat, (List.replicate g.V NEW)[j]? = some VISITED → Reachable g s j := by
    intro j hvis
    exfalso
    have hjlt := lidx_lt_of_some _ _ _ hvis
    rw [hrep] at hjlt
    rw [lidx_replicate g.V j hjlt] at hvis
    simp at hvis
  have hclosed : ∀ (j : Nat) (ws : List Nat),
      (List.replicate g.V NEW)[j]? = some VISITED → g.adjLists[j]? = some ws →
      ∀ w ∈ ws, (List.replicate g.V NEW)[w]? = some VISITED ∨
        InStack (List.replicate g.V NEW).length (Stack.empty.push (s : Int)) w := by
    intro j ws hvis _ w _
    exfalso
    have hjlt := lidx_lt_of_some _ _ _ hvis
    rw [hrep] at hjlt
    rw [lidx_replicate g.V j hjlt] at hvis
    simp at hvis
  have hsrc : (List.replicate g.V NEW)[s]? = some VISITED ∨
      InStack (List.replicate g.V NEW).length (Stack.empty.push (s : Int)) s := by
    right
    refine ⟨(s : Int), List.mem_singleton.mpr rfl, ?_⟩
    rw [hrep]
    exact pyIdx_nat hs
  have hμ : (Stack.empty.push (s : Int)).length +
      degSum (List.replicate g.V NEW) g.adjLists ≤ dfsFuel g := by
    have hdeg : degSum (List.replicate g.V NEW) g.adjLists = totalAdj g :=
      degSum_replicate g.adjLists
    show 1 + degSum (List.replicate g.V NEW) g.adjLists ≤ 1 + g.V + totalAdj g
    omega
  obtain ⟨st, n, hloop, hstlen, hstvals, hstsound, hstclosed, hstsrc⟩ :=
    dfs_go g s hwf (dfsFuel g) (List.replicate g.V NEW) (Stack.empty.push (s : Int))
      (replicate_len g) (replicate_vals g) (replicate_inv g _) hsound hvsound hclosed hsrc hμ
  have hcomplete : ∀ j : Nat, Reachable g s j → st[j]? = some VISITED := by
    intro j hr
    induction hr with
    | refl => exact hstsrc
    | tail h₁ h₂ ih =>
        obtain ⟨ws, hws, hw⟩ := edge_elim h₂
        exact hstclosed _ ws ih hws _ hw
  refine ⟨st, n, hloop, hstlen, hstvals, ?_⟩
  intro j
  exact ⟨hstsound j, hcomplete j⟩

lemma dfsStep_ok_set {g : Graph} {state : List Nat} {v : Int} {S : Stack}
    {out : List Nat × Stack} (h : dfsStep g state v S = .ok out) :
    pySet state v VISITED = .ok out.1 := by
  unfold dfsStep at h
  cases hset : pySet state v VISITED with
  | error e => rw [hset] at h; exact absurd h (by simp)
  | ok st₀ =>
      simp only [hset] at h
      cases hadj : g.adj v with
      | error e => rw [hadj] at h; exact absurd h (by simp)
      | ok ws =>
          simp only [hadj] at h
          cases hpush : pushNew st₀ ws S with
          | error e => rw [hpush] at h; exact absurd h (by simp)
          | ok S₀ =>
              simp only [hpush, Except.ok.injEq] at h
              have hout : out.1 = st₀ := by rw [← h]
              rw [hout]

lemma pySet_error_elim {α : Type} {l : List α} {i : Int} {a : α} {e : PyErr}
    (h : pySet l i a = .error e) : e = .indexError := by
  unfold pySet at h
  cases hp : pyIdx l.length i with
  | some j => rw [hp] at h; exact absurd h (by simp)
  | none =>
      rw [hp] at h
      simp only [Except.error.injEq] at h
      exact h.symm

lemma pyGet_error_elim {α : Type} {l : List α} {i : Int} {e : PyErr}
    (h : pyGet l i = .error e) : e = .indexError := by
  unfold pyGet at h
  cases hp : pyIdx l.length i with
  | some j =>
      simp only [hp] at h
      cases hg : l[j]? with
      | some a => rw [hg] at h; exact absurd h (by simp)
      | none =>
          rw [hg] at h
          simp only [Except.error.injEq] at h
          exact h.symm
  | none =>
      rw [hp] at h
      simp only [Except.error.injEq] at h
      exact h.symm

lemma pushNew_error_elim : ∀ (st : List Nat) (ws : List Nat) (S : Stack) (e : PyErr),
    pushNew st ws S = .error e → e = .indexError := by
  intro st ws
  induction ws with
  | nil => intro S e h; exact absurd h (by simp [pushNew])
  | cons w ws ih =>
      intro S e h
      unfold pushNew at h
      cases hg : st[w]? with
      | none =>
          rw [pyGet_nat_none hg] at h
          simp only [Except.error.injEq] at h
          exact h.symm
      | some x =>
          simp only [pyGet_nat_some hg] at h
          by_cases hx : x = NEW
          · rw [if_pos hx] at h
            exact ih _ e h
          · rw [if_neg hx] at h
            exact ih _ e h

lemma dfsStep_error_elim {g : Graph} {state : List Nat} {v : Int} {S : Stack} {e : PyErr}
    (h : dfsStep g state v S = .error e) : e = .indexError := by
  unfold dfsStep at h
  cases hset : pySet state v VISITED with
  | error e₀ =>
      simp only [hset, Except.error.injEq] at h
      rw [← h]
      exact pySet_error_elim hset
  | ok st₀ =>
      simp only [hset] at h
      cases hadj : g.adj v with
      | error e₀ =>
          simp only [hadj, Except.error.injEq] at h
          rw [← h]
          exact pyGet_error_elim hadj
      | ok ws =>
          simp only [hadj] at h
          cases hpush : pushNew st₀ ws S with
          | error e₀ =>
              simp only [hpush, Except.error.injEq] at h
              rw [← h]
              exact pushNew_error_elim _ _ _ _ hpush
          | ok S₀ => rw [hpush] at h; exact absurd h (by simp)

lemma dfsLoop_monotone (g : Graph) : ∀ (fuel : Nat) (state : List Nat) (S : Stack)
    (st : List Nat) (n : Nat), dfsLoop g fuel state S = some (.ok st, n) →
    ∀ i : Nat, state[i]? = some VISITED → st[i]? = some VISITED := by
  intro fuel
  induction fuel with
  | zero =>
      intro state S st n h i hi
      cases S with
      | nil =>
          rw [dfsLoop_nil] at h
          simp only [Option.some.injEq, Prod.mk.injEq, Except.ok.injEq] at h
          rw [← h.1]
          exact hi
      | cons v S =>
          rw [dfsLoop_zero_cons] at h
          exact absurd h (by simp)
  | succ fuel ih =>
      intro state S st n h i hi
      cases S with
      | nil =>
          rw [dfsLoop_nil] at h
          simp only [Option.some.injEq, Prod.mk.injEq, Except.ok.injEq] at h
          rw [← h.1]
          exact hi
      | cons v S =>
          rw [dfsLoop_succ_cons] at h
          cases hstep : dfsStep g state v S with
          | error e =>
              simp only [hstep] at h
              simp at h
          | ok p =>
              obtain ⟨state₂, S₂⟩ := p
              simp only [hstep] at h
              cases hloop : dfsLoop g fuel state₂ S₂ with
              | none => simp only [hloop] at h; exact absurd h (by simp)
              | some q =>
                  obtain ⟨r, m⟩ := q
                  simp only [hloop, Option.some.injEq, Prod.mk.injEq] at h
                  obtain ⟨hr, -⟩ := h
                  obtain ⟨j, hj, hst₂⟩ := pySet_ok_elim (dfsStep_ok_set hstep)
                  have hst₂x : state₂ = state.set j VISITED := hst₂
                  have hi₂ : state₂[i]? = some VISITED := by
                    rw [hst₂x]
                    by_cases hij : i = j
                    · rw [hij]
                      exact lidx_set_self state j VISITED (pyIdx_lt hj)
                    · rw [lidx_set_ne state j i VISITED hij]
                      exact hi
                  rw [hr] at hloop
                  exact ih state₂ S₂ st m hloop i hi₂

lemma reach_lt {g : Graph} (hwf : g.wf) {s w : Nat} (hs : s < g.V) (h : Reachable g s w) :
    w < g.V := by
  induction h with
  | refl => exact hs
  | tail h₁ h₂ ih => exact wf_target_lt hwf h₂

lemma reach_transfer {g₁ g₂ : Graph} (hwf₁ : g₁.wf) (_hV : g₁.V = g₂.V)
    (hadj : ∀ j, j < g₁.V → ∀ w, w < g₁.V → (Edge g₁ j w ↔ Edge g₂ j w))
    {s w : Nat} (hs : s < g₁.V) (h : Reachable g₁ s w) : Reachable g₂ s w := by
  induction h with
  | refl => exact Relation.ReflTransGen.refl
  | tail h₁ h₂ ih =>
      have hb := reach_lt hwf₁ hs h₁
      have hc := wf_target_lt hwf₁ h₂
      exact Relation.ReflTransGen.tail ih ((hadj _ hb _ hc).mp h₂)

lemma beq_visited_eq {x y : Nat} (h : x = VISITED ↔ y = VISITED) :
    (x == VISITED) = (y == VISITED) := by
  by_cases h1 : x = VISITED
  · rw [h1, h.mp h1]
  · have h2 : ¬ y = VISITED := fun hh => h1 (h.mpr hh)
    have hb1 : (x == VISITED) = false := by
      cases hb : x == VISITED
      · rfl
      · exact absurd (eq_of_beq hb) h1
    have hb2 : (y == VISITED) = false := by
      cases hb : y == VISITED
      · rfl
      · exact absurd (eq_of_beq hb) h2
    rw [hb1, hb2]

lemma pyIdx_neg_some {n : Nat} {i : Int} (hn : -(n : Int) ≤ i) (hi : i < 0) :
    pyIdx n i = some (i + n).toNat := by
  unfold pyIdx
  rw [pyShift_of_neg hi]
  have hb : 0 ≤ i + (n : Int) ∧ i + (n : Int) < (n : Int) := by omega
  rw [if_pos hb]

lemma pyGet_congr_idx {α : Type} {l : List α} {i i₂ : Int}
    (h : pyIdx l.length i = pyIdx l.length i₂) : pyGet l i = pyGet l i₂ := by
  unfold pyGet
  rw [h]

lemma dfsStep_congr_idx {g : Graph} {state : List Nat} {v v₂ : Int} (S : Stack)
    (hlen : state.length = g.adjLists.length)
    (h : pyIdx state.length v = pyIdx state.length v₂) :
    dfsStep g state v S = dfsStep g state v₂ S := by
  unfold dfsStep
  have hset : pySet state v VISITED = pySet state v₂ VISITED := by
    unfold pySet
    rw [h]
  have hadj : g.adj v = g.adj v₂ := by
    unfold Graph.adj
    apply pyGet_congr_idx
    rw [← hlen]
    exact h
  rw [hset, hadj]

/-- Scenario graph of the spec: vertices 0..4, undirected edges 0-1, 1-2, 3-4. -/
def gPath : Graph := ⟨[[1], [0, 2], [1], [4], [3]]⟩

/-- Graph where vertex 2 enters the frontier twice: edges 0 to 2, 0 to 1, 1 to 2. -/
def gDup : Graph := ⟨[[2, 1], [2], []]⟩

/-- The single vertex graph with no edges. -/
def gSolo : Graph := ⟨[[]]⟩

/-- Star with neighbours listed in one order. -/
def gOrd₁ : Graph := ⟨[[1, 2], [], []]⟩

/-- Star with neighbours listed in the other order. -/
def gOrd₂ : Graph := ⟨[[2, 1], [], []]⟩

/-- C1: for every well formed graph and every valid source, construction
succeeds and is_visited answers true exactly on the vertices reachable
from the source by a path of edges: soundness and completeness of the
visited set. -/
theorem dfs_visited_iff_reachable (g : Graph) (s : Nat) (hwf : g.wf) (hs : s < g.V) :
    ∃ st : List Nat, DepthFirstSearch g (s : Int) = .ok st ∧
      ∀ v : Nat, v < g.V → (is_visited st (v : Int) = .ok true ↔ Reachable g s v) := by
  obtain ⟨st, n, hrun, hlen, hvals, hiff⟩ := dfs_main g s hwf hs
  refine ⟨st, dfs_of_run hrun, ?_⟩
  intro v hv
  have hvlt : v < st.length := by rw [hlen]; exact hv
  obtain ⟨x, hx⟩ := lidx_of_lt st v hvlt
  rw [is_visited_ok_of (pyIdx_nat hvlt) hx]
  constructor
  · intro hok
    injection hok with hb
    have hxv : x = VISITED := eq_of_beq hb
    rw [hxv] at hx
    exact (hiff v).mp hx
  · intro hr
    have hvis := (hiff v).mpr hr
    rw [hx] at hvis
    injection hvis with hxe
    rw [hxe]
    rfl

/-- Witness for C1 at the scenario graph of the spec with source 0. -/
theorem dfs_visited_iff_reachable_inst :
    ∃ st : List Nat, DepthFirstSearch gPath 0 = .ok st ∧
      ∀ v : Nat, v < gPath.V → (is_visited st (v : Int) = .ok true ↔ Reachable gPath 0 v) :=
  dfs_visited_iff_reachable gPath 0 (by decide) (by decide)

/-- C2: for every well formed graph and valid source the traversal loop
of the constructor halts successfully within its fuel, and the number of
pop operations it performs is at most 1 + V + E, where V is the vertex
count and E the total length of the adjacency lists. -/
theorem dfs_terminates_linear_pops (g : Graph) (s : Nat) (hwf : g.wf) (hs : s < g.V) :
    ∃ (st : List Nat) (n : Nat), dfsRun g (s : Int) = some (.ok st, n) ∧
      n ≤ 1 + g.V + totalAdj g := by
  obtain ⟨st, n, hrun, -, -, -⟩ := dfs_main g s hwf hs
  obtain ⟨out, hout, hcnt⟩ := dfsRun_some g (s : Int)
  rw [hrun] at hout
  injection hout with he
  refine ⟨st, n, hrun, ?_⟩
  rw [← he] at hcnt
  have hn : n ≤ 1 + totalAdj g := hcnt
  omega

/-- Witness for C2 at the scenario graph of the spec with source 0. -/
theorem dfs_terminates_linear_pops_inst :
    ∃ (st : List Nat) (n : Nat), dfsRun gPath 0 = some (.ok st, n) ∧
      n ≤ 1 + gPath.V + totalAdj gPath :=
  dfs_terminates_linear_pops gPath 0 (by decide) (by decide)

/-- C3 counterexample: on the single vertex graph with source equal to
the vertex count, construction fails with IndexError, which is not the
InvalidVertexError claimed by the spec; no validation exists in the
constructor of the source. -/
theorem oob_source_invalid_error_cex :
    DepthFirstSearch gSolo 1 = .error .indexError ∧
    DepthFirstSearch gSolo 1 ≠ .error .invalidVertexError := by
  decide

/-- C3 amended: for every graph and every source outside the wrapping
range, meaning s below minus V or at least V, the constructor raises
IndexError from the very first state write, before any vertex state is
set to VISITED: the failing write is on the all NEW state array, so no
VISITED state is ever published. Sources in the range minus V up to
minus one instead wrap around, see the negative index theorem. -/
theorem oob_source_index_error (g : Graph) (s : Int)
    (h : s < -(g.V : Int) ∨ (g.V : Int) ≤ s) :
    pySet (List.replicate g.V NEW) s VISITED = .error .indexError ∧
    DepthFirstSearch g s = .error .indexError := by
  have hidx : pyIdx (List.replicate g.V NEW).length s = none := by
    rw [List.length_replicate]
    exact pyIdx_none h
  have hset := pySet_err_of VISITED hidx
  refine ⟨hset, ?_⟩
  have hstep : dfsStep g (List.replicate g.V NEW) s [] = .error .indexError := by
    unfold dfsStep
    simp only [hset]
  have hfuel : dfsFuel g = (g.V + totalAdj g) + 1 := by
    unfold dfsFuel
    omega
  unfold DepthFirstSearch dfsRun
  rw [hfuel]
  show (match dfsLoop g ((g.V + totalAdj g) + 1) (List.replicate g.V NEW) (s :: []) with
        | some (r, _) => r
        | none => Except.error PyErr.indexError) = Except.error PyErr.indexError
  rw [dfsLoop_succ_cons]
  simp only [hstep]

/-- Witness for the amended C3 on the single vertex graph with source 2. -/
theorem oob_source_index_error_inst :
    pySet (List.replicate gSolo.V NEW) 2 VISITED = .error .indexError ∧
    DepthFirstSearch gSolo 2 = .error .indexError :=
  oob_source_index_error gSolo 2 (by decide)

/-- C4 counterexample: on the engine built on the single vertex graph,
the query at index minus one, which is outside the claimed valid range,
does not fail at all: it wraps around and answers true. -/
theorem query_neg_index_cex :
    DepthFirstSearch gSolo 0 = .ok [VISITED] ∧
    is_visited [VISITED] (-1) = .ok true ∧
    is_visited [VISITED] (-1) ≠ .error .invalidVertexError := by
  decide

/-- C4 amended: the query fails, with IndexError rather than the claimed
InvalidVertexError, exactly when the index is below minus the state
array length or at least that length; for an index inside the array it
returns whether the state of that vertex equals VISITED. -/
theorem is_visited_contract (st : List Nat) (v : Int) :
    ((v < -(st.length : Int) ∨ (st.length : Int) ≤ v) →
        is_visited st v = .error .indexError) ∧
    (∀ j : Nat, (j : Int) = v → j < st.length →
        ∃ x, st[j]? = some x ∧ is_visited st v = .ok (x == VISITED)) := by
  constructor
  · intro h
    exact is_visited_err_of (pyIdx_none h)
  · intro j hj hlt
    obtain ⟨x, hx⟩ := lidx_of_lt st j hlt
    refine ⟨x, hx, ?_⟩
    rw [← hj]
    exact is_visited_ok_of (pyIdx_nat hlt) hx

/-- Witness for the amended C4 on a one entry state array. -/
theorem is_visited_contract_inst :
    is_visited [VISITED] 2 = .error .indexError ∧
    (∃ x, ([VISITED] : List Nat)[0]? = some x ∧ is_visited [VISITED] 0 = .ok (x == VISITED)) :=
  ⟨(is_visited_contract [VISITED] 2).1 (by decide),
   (is_visited_contract [VISITED] 0).2 0 rfl (by decide)⟩

/-- C5: for every well formed graph and valid source, after construction
the source itself is classified visited; the single vertex boundary case
is the witness below. -/
theorem dfs_source_visited (g : Graph) (s : Nat) (hwf : g.wf) (hs : s < g.V) :
    ∃ st : List Nat, DepthFirstSearch g (s : Int) = .ok st ∧
      is_visited st (s : Int) = .ok true := by
  obtain ⟨st, n, hrun, hlen, hvals, hiff⟩ := dfs_main g s hwf hs
  refine ⟨st, dfs_of_run hrun, ?_⟩
  have hvis : st[s]? = some VISITED := (hiff s).mpr Relation.ReflTransGen.refl
  have hslt : s < st.length := lidx_lt_of_some _ _ _ hvis
  rw [is_visited_ok_of (pyIdx_nat hslt) hvis]
  rfl

/-- Witness for C5: the one vertex graph with no edges, source 0. -/
theorem dfs_source_visited_inst :
    ∃ st : List Nat, DepthFirstSearch gSolo 0 = .ok st ∧ is_visited st 0 = .ok true :=
  dfs_source_visited gSolo 0 (by decide) (by decide)

/-- C6: monotonicity of the per vertex visit state. Every successful
loop iteration changes the state array exactly by writing VISITED at the
canonical index of the popped vertex, so a VISITED entry can never
return to NEW, and across any whole run of the loop every entry that is
VISITED stays VISITED. A vertex therefore transitions NEW to VISITED at
most once, exactly at a pop of it. -/
theorem visit_state_monotone :
    (∀ (g : Graph) (state : List Nat) (v : Int) (S : Stack) (out : List Nat × Stack),
        dfsStep g state v S = .ok out →
        (∃ j : Nat, pyIdx state.length v = some j ∧ out.1 = state.set j VISITED) ∧
        (∀ i : Nat, state[i]? = some VISITED → out.1[i]? = some VISITED)) ∧
    (∀ (g : Graph) (fuel : Nat) (state : List Nat) (S : Stack) (st : List Nat) (n : Nat),
        dfsLoop g fuel state S = some (.ok st, n) →
        ∀ i : Nat, state[i]? = some VISITED → st[i]? = some VISITED) := by
  constructor
  · intro g state v S out h
    obtain ⟨j, hj, hout⟩ := pySet_ok_elim (dfsStep_ok_set h)
    refine ⟨⟨j, hj, hout⟩, ?_⟩
    intro i hi
    rw [hout]
    by_cases hij : i = j
    · rw [hij]
      exact lidx_set_self state j VISITED (pyIdx_lt hj)
    · rw [lidx_set_ne state j i VISITED hij]
      exact hi
  · exact fun g fuel state S st n h i hi => dfsLoop_monotone g fuel state S st n h i hi

/-- Witness for C6 on a concrete step and a concrete finished run. -/
theorem visit_state_monotone_inst :
    ((∃ j : Nat, pyIdx 1 0 = some j ∧ [VISITED] = [NEW].set j VISITED) ∧
      (∀ i : Nat, ([NEW] : List Nat)[i]? = some VISITED →
        ([VISITED] : List Nat)[i]? = some VISITED)) ∧
    ([VISITED] : List Nat)[0]? = some VISITED :=
  ⟨visit_state_monotone.1 gSolo [NEW] 0 [] ([VISITED], []) rfl,
   visit_state_monotone.2 gSolo 5 [VISITED] [] [VISITED] 0 rfl 0 rfl⟩

/-- C7: every value the loop produces is never the empty frontier error:
the single pop of each iteration is guarded by the emptiness test of the
while condition, so the failing branch of pop is unreachable, and no
other operation of the engine can raise EmptyFrontierError. -/
theorem no_empty_frontier_error :
    ∀ (g : Graph) (fuel : Nat) (state : List Nat) (S : Stack)
      (out : Except PyErr (List Nat) × Nat),
      dfsLoop g fuel state S = some out → out.1 ≠ .error .emptyFrontierError := by
  intro g fuel
  induction fuel with
  | zero =>
      intro state S out h
      cases S with
      | nil =>
          rw [dfsLoop_nil] at h
          injection h with he
          rw [← he]
          simp
      | cons v S =>
          rw [dfsLoop_zero_cons] at h
          exact absurd h (by simp)
  | succ fuel ih =>
      intro state S out h
      cases S with
      | nil =>
          rw [dfsLoop_nil] at h
          injection h with he
          rw [← he]
          simp
      | cons v S =>
          rw [dfsLoop_succ_cons] at h
          cases hstep : dfsStep g state v S with
          | error e =>
              simp only [hstep] at h
              injection h with he
              rw [← he]
              have hie := dfsStep_error_elim hstep
              rw [hie]
              simp
          | ok p =>
              obtain ⟨state₂, S₂⟩ := p
              simp only [hstep] at h
              cases hloop : dfsLoop g fuel state₂ S₂ with
              | none => simp only [hloop] at h; exact absurd h (by simp)
              | some q =>
                  obtain ⟨r, m⟩ := q
                  simp only [hloop] at h
                  injection h with he
                  rw [← he]
                  have := ih state₂ S₂ (r, m) hloop
                  simpa using this

/-- Witness for C7 on a finished concrete run of the loop. -/
theorem no_empty_frontier_error_inst :
    ((Except.ok [VISITED] : Except PyErr (List Nat)), 1).1 ≠
      Except.error PyErr.emptyFrontierError :=
  no_empty_frontier_error gSolo 2 [NEW] [0] (Except.ok [VISITED], 1) rfl

/-- C8: marking happens exactly at pop time. The state array produced by
a successful iteration is exactly the pySet of the popped vertex to
VISITED, applied unconditionally and regardless of the previous state of
that vertex, and the push phase never writes any state. Consequently, on
the graph with edges 0 to 2, 0 to 1 and 1 to 2, after two iterations the
frontier holds vertex 2 twice at once; the extra occurrence is later
popped and redundantly re marked, and the final visited set is exactly
the reachable set of all three vertices. -/
theorem mark_on_pop_duplicates :
    (∀ (g : Graph) (state : List Nat) (v : Int) (S : Stack) (out : List Nat × Stack),
        dfsStep g state v S = .ok out → pySet state v VISITED = .ok out.1) ∧
    dfsStep gDup [NEW, NEW, NEW] 0 [] = .ok ([VISITED, NEW, NEW], [1, 2]) ∧
    dfsStep gDup [VISITED, NEW, NEW] 1 [2] = .ok ([VISITED, VISITED, NEW], [2, 2]) ∧
    dfsStep gDup [VISITED, VISITED, VISITED] 2 [] = .ok ([VISITED, VISITED, VISITED], []) ∧
    DepthFirstSearch gDup 0 = .ok [VISITED, VISITED, VISITED] := by
  refine ⟨fun g state v S out h => dfsStep_ok_set h, ?_, ?_, ?_, ?_⟩
  · decide
  · decide
  · decide
  · decide

/-- Witness for C8 applying the universal conjunct at the first
iteration of the duplicate graph run. -/
theorem mark_on_pop_duplicates_inst :
    pySet [NEW, NEW, NEW] 0 VISITED = .ok [VISITED, NEW, NEW] :=
  mark_on_pop_duplicates.1 gDup [NEW, NEW, NEW] 0 [] ([VISITED, NEW, NEW], [1, 2]) rfl

/-- C9: the final visited classification only depends on the adjacency
sets and the source, not on the order in which each adjacency list
enumerates the neighbours: two well formed graphs with the same vertex
count, the same edge relation and the same valid source give engines
whose is_visited queries agree on every integer index, including the
error cases. -/
theorem visited_independent_of_adj_order (g₁ g₂ : Graph) (s : Nat)
    (hwf₁ : g₁.wf) (hwf₂ : g₂.wf) (hV : g₁.V = g₂.V)
    (hadj : ∀ j, j < g₁.V → ∀ w, w < g₁.V → (Edge g₁ j w ↔ Edge g₂ j w))
    (hs : s < g₁.V) :
    ∃ st₁ st₂ : List Nat, DepthFirstSearch g₁ (s : Int) = .ok st₁ ∧
      DepthFirstSearch g₂ (s : Int) = .ok st₂ ∧
      ∀ v : Int, is_visited st₁ v = is_visited st₂ v := by
  have hs₂ : s < g₂.V := by rw [← hV]; exact hs
  obtain ⟨st₁, n₁, hrun₁, hlen₁, hvals₁, hiff₁⟩ := dfs_main g₁ s hwf₁ hs
  obtain ⟨st₂, n₂, hrun₂, hlen₂, hvals₂, hiff₂⟩ := dfs_main g₂ s hwf₂ hs₂
  refine ⟨st₁, st₂, dfs_of_run hrun₁, dfs_of_run hrun₂, ?_⟩
  intro v
  have hlen : st₁.length = st₂.length := by rw [hlen₁, hlen₂, hV]
  cases hp : pyIdx st₁.length v with
  | none =>
      have hp₂ : pyIdx st₂.length v = none := by rw [← hlen]; exact hp
      rw [is_visited_err_of hp, is_visited_err_of hp₂]
  | some j =>
      have hp₂ : pyIdx st₂.length v = some j := by rw [← hlen]; exact hp
      have hjlt : j < st₁.length := pyIdx_lt hp
      obtain ⟨x₁, hx₁⟩ := lidx_of_lt st₁ j hjlt
      obtain ⟨x₂, hx₂⟩ := lidx_of_lt st₂ j (by rw [← hlen]; exact hjlt)
      rw [is_visited_ok_of hp hx₁, is_visited_ok_of hp₂ hx₂]
      have hadj₂ : ∀ j, j < g₂.V → ∀ w, w < g₂.V → (Edge g₂ j w ↔ Edge g₁ j w) := by
        intro a ha b hb
        exact (hadj a (by rw [hV]; exact ha) b (by rw [hV]; exact hb)).symm
      have hiffv : x₁ = VISITED ↔ x₂ = VISITED := by
        constructor
        · intro h1
          rw [h1] at hx₁
          have hr₁ : Reachable g₁ s j := (hiff₁ j).mp hx₁
          have hr₂ : Reachable g₂ s j := reach_transfer hwf₁ hV hadj hs hr₁
          have hv₂ := (hiff₂ j).mpr hr₂
          rw [hx₂] at hv₂
          injection hv₂
        · intro h2
          rw [h2] at hx₂
          have hr₂ : Reachable g₂ s j := (hiff₂ j).mp hx₂
          have hr₁ : Reachable g₁ s j := reach_transfer hwf₂ hV.symm hadj₂ hs₂ hr₂
          have hv₁ := (hiff₁ j).mpr hr₁
          rw [hx₁] at hv₁
          injection hv₁
      rw [beq_visited_eq hiffv]

/-- Witness for C9 on the two orderings of the same star graph. -/
theorem visited_independent_of_adj_order_inst :
    ∃ st₁ st₂ : List Nat, DepthFirstSearch gOrd₁ 0 = .ok st₁ ∧
      DepthFirstSearch gOrd₂ 0 = .ok st₂ ∧
      ∀ v : Int, is_visited st₁ v = is_visited st₂ v :=
  visited_independent_of_adj_order gOrd₁ gOrd₂ 0 (by decide) (by decide) (by decide)
    (by decide) (by decide)

/-- C10: negative indices inside the wrapping range are silently
accepted through Python index wraparound rather than rejected. For a
state array of the engine, the query at a negative v in the range minus
V up to minus one equals the query at V plus v and returns a boolean
without error; construction from such a negative source equals the
construction from V plus s and succeeds for a well formed graph. -/
theorem negative_index_wraparound (g : Graph) (s : Int) (hwf : g.wf)
    (h1 : -(g.V : Int) ≤ s) (h2 : s < 0) :
    (∀ st : List Nat, st.length = g.V →
        is_visited st s = is_visited st ((g.V : Int) + s) ∧
        ∃ b, is_visited st s = .ok b) ∧
    DepthFirstSearch g s = DepthFirstSearch g ((g.V : Int) + s) ∧
    (∃ st : List Nat, DepthFirstSearch g s = .ok st) := by
  have hidxeq : pyIdx g.V s = pyIdx g.V ((g.V : Int) + s) := pyIdx_neg h1 h2
  have hpart1 : ∀ st : List Nat, st.length = g.V →
      is_visited st s = is_visited st ((g.V : Int) + s) ∧
      ∃ b, is_visited st s = .ok b := by
    intro st hlen
    have he : pyIdx st.length s = pyIdx st.length ((g.V : Int) + s) := by
      rw [hlen]
      exact hidxeq
    constructor
    · unfold is_visited
      rw [pyGet_congr_idx he]
    · have hj : pyIdx st.length s = some (s + g.V).toNat := by
        rw [hlen]
        exact pyIdx_neg_some h1 h2
      have hjlt : (s + (g.V : Int)).toNat < st.length := pyIdx_lt hj
      obtain ⟨x, hx⟩ := lidx_of_lt st _ hjlt
      exact ⟨x == VISITED, is_visited_ok_of hj hx⟩
  have hlenrep : (List.replicate g.V NEW).length = g.adjLists.length := replicate_len g
  have hidxrep : pyIdx (List.replicate g.V NEW).length s =
      pyIdx (List.replicate g.V NEW).length ((g.V : Int) + s) := by
    rw [List.length_replicate]
    exact hidxeq
  have hstepeq := dfsStep_congr_idx ([] : Stack) hlenrep hidxrep
  have hruneq : dfsRun g s = dfsRun g ((g.V : Int) + s) := by
    unfold dfsRun
    have hfuel : dfsFuel g = (g.V + totalAdj g) + 1 := by
      unfold dfsFuel
      omega
    rw [hfuel]
    show dfsLoop g ((g.V + totalAdj g) + 1) (List.replicate g.V NEW) (s :: []) =
      dfsLoop g ((g.V + totalAdj g) + 1) (List.replicate g.V NEW) (((g.V : Int) + s) :: [])
    rw [dfsLoop_succ_cons, dfsLoop_succ_cons, hstepeq]
  have hdfseq : DepthFirstSearch g s = DepthFirstSearch g ((g.V : Int) + s) := by
    unfold DepthFirstSearch
    rw [hruneq]
  have hs₀lt : ((g.V : Int) + s).toNat < g.V := by omega
  have hcast : ((((g.V : Int) + s).toNat : Nat) : Int) = (g.V : Int) + s := by omega
  obtain ⟨st, n, hrun, -, -, -⟩ := dfs_main g (((g.V : Int) + s).toNat) hwf hs₀lt
  have hok : DepthFirstSearch g ((g.V : Int) + s) = .ok st := by
    rw [← hcast]
    exact dfs_of_run hrun
  refine ⟨hpart1, hdfseq, ⟨st, ?_⟩⟩
  rw [hdfseq]
  exact hok

/-- Witness for C10 on the single vertex graph with source minus one. -/
theorem negative_index_wraparound_inst :
    (∀ st : List Nat, st.length = gSolo.V →
        is_visited st (-1) = is_visited st ((gSolo.V : Int) + (-1)) ∧
        ∃ b, is_visited st (-1) = .ok b) ∧
    DepthFirstSearch gSolo (-1) = DepthFirstSearch gSolo ((gSolo.V : Int) + (-1)) ∧
    (∃ st : List Nat, DepthFirstSearch gSolo (-1) = .ok st) :=
  negative_index_wraparound gSolo (-1) (by decide) (by decide) (by decide)
